import Mathlib

/-!
Verification of the wezterm launcher overlay
(`wezterm-gui/src/overlay/launcher.rs`).

The launcher engine is a single-threaded state machine: a `LauncherState`
record is mutated by input events (`run_loop`), re-filtered against a fuzzy
matcher, and rendered.  This development embeds the state, the pure state
transitions of the input loop, the filtering/ranking pipeline and the
catalog/shortcut builders, and proves the specified properties about them.

Machine integers (`usize`) are modelled as `Nat`; every `saturating_sub`
becomes truncating `Nat` subtraction, and the few places where the source
performs unchecked arithmetic or indexing are noted at their definitions.
External collaborators (the `SkimMatcherV2` scorer from the `fuzzy_matcher`
crate, the lua label-formatting hook, mux/window handles) are parameters.
-/

set_option maxHeartbeats 1000000

namespace WezLauncher

/-- Action descriptor (`KeyAssignment` from `config::keyassignment`).  The
launcher only ever inspects the `ActivateTab` / `ActivateTabRelative`
variants and otherwise relies on structural equality, so the constructors it
actually builds are modelled and every remaining variant is collapsed into
an opaque, still structurally-comparable `Other` code. -/
inductive KeyAssignment where
  | ActivateTab : Int → KeyAssignment
  | ActivateTabRelative : Int → KeyAssignment
  | AttachDomain : String → KeyAssignment
  | SpawnCommandInNewTab : String → KeyAssignment
  | Other : Nat → KeyAssignment
deriving DecidableEq

/-- One selectable row (`LauncherEntry`): a display label and a dispatchable
action.  The `launch_type` provenance payload is carried opaquely by the
source and never read by the engine, so it is not modelled. -/
structure LauncherEntry where
  label : String
  action : KeyAssignment
deriving DecidableEq

/-- `LauncherFlags`: the engine itself consults only the `FUZZY` bit
(start-in-filtering / always-filtering mode). -/
structure LauncherFlags where
  fuzzy : Bool
deriving DecidableEq

/-- `LauncherState`.  `pane_id` and `window` are handles used only by the
external dispatch sink and are not part of the transition logic. -/
structure LauncherState where
  active_idx : Nat
  max_items : Nat
  top_row : Nat
  entries : List LauncherEntry
  filter_term : String
  filtered_entries : List LauncherEntry
  filtering : Bool
  flags : LauncherFlags
deriving DecidableEq

/-- `LauncherState::move_up`:
`active_idx = active_idx.saturating_sub(1)`, then pull `top_row` down to the
cursor when the cursor left the window at the top. -/
def move_up (s : LauncherState) : LauncherState :=
  let active_idx := s.active_idx - 1
  if active_idx < s.top_row then
    { s with active_idx := active_idx, top_row := active_idx }
  else
    { s with active_idx := active_idx }

/-- `LauncherState::move_down`:
`active_idx = (active_idx + 1).min(filtered_entries.len() - 1)`, then
`if active_idx + top_row > max_items { top_row = active_idx.saturating_sub(max_items) }`.
`filtered_entries.len() - 1` is `usize` arithmetic in the source and is only
well-defined for a non-empty filtered list; theorems about `move_down`
therefore carry that hypothesis. -/
def move_down (s : LauncherState) : LauncherState :=
  let active_idx := min (s.active_idx + 1) (s.filtered_entries.length - 1)
  if s.max_items < active_idx + s.top_row then
    { s with active_idx := active_idx, top_row := active_idx - s.max_items }
  else
    { s with active_idx := active_idx }

/-- The session invariant claimed by the spec: the cursor lies inside the
visible window `[top_row, top_row + max_items]` and indexes a real filtered
row whenever the filtered view is non-empty. -/
def SessionInvariant (s : LauncherState) : Prop :=
  s.top_row ≤ s.active_idx ∧ s.active_idx ≤ s.top_row + s.max_items ∧
    (s.filtered_entries ≠ [] → s.active_idx < s.filtered_entries.length)

instance (s : LauncherState) : Decidable (SessionInvariant s) := by
  unfold SessionInvariant; infer_instance

theorem move_up_inv (s : LauncherState) (h : SessionInvariant s) :
    SessionInvariant (move_up s) := by
  obtain ⟨a, mx, t, es, ft, fe, fi, fl⟩ := s
  obtain ⟨h1, h2, h3⟩ := h
  dsimp only at h1 h2 h3
  unfold move_up SessionInvariant
  dsimp only
  split <;> dsimp only <;> refine ⟨by omega, by omega, fun hne => ?_⟩ <;>
    exact lt_of_le_of_lt (Nat.sub_le _ _) (h3 hne)

theorem move_down_inv (s : LauncherState) (h : SessionInvariant s)
    (hne : s.filtered_entries ≠ []) : SessionInvariant (move_down s) := by
  obtain ⟨a, mx, t, es, ft, fe, fi, fl⟩ := s
  obtain ⟨h1, h2, h3⟩ := h
  have hlen : 0 < fe.length := List.length_pos.mpr hne
  have hai : a < fe.length := h3 hne
  dsimp only at h1 h2
  unfold move_down SessionInvariant
  dsimp only
  split <;> dsimp only <;> refine ⟨by omega, by omega, fun _ => by omega⟩

/-- C3: after `move_down` / `move_up` change `active_idx`, a cursor that
fell below `top_row` drags `top_row` down to itself, a cursor that exceeded
`top_row + max_items` advances `top_row` by exactly the overflow amount, and
in all cases the cursor ends inside the visible window
`[top_row, top_row + max_items]`. -/
theorem move_scroll_adjustment (s : LauncherState)
    (hinv : SessionInvariant s) (hne : s.filtered_entries ≠ []) :
    ((move_up s).active_idx < s.top_row → (move_up s).top_row = (move_up s).active_idx) ∧
    ((move_down s).active_idx < s.top_row → (move_down s).top_row = (move_down s).active_idx) ∧
    (s.top_row + s.max_items < (move_down s).active_idx →
      (move_down s).top_row =
        s.top_row + ((move_down s).active_idx - (s.top_row + s.max_items))) ∧
    (s.top_row + s.max_items < (move_up s).active_idx →
      (move_up s).top_row =
        s.top_row + ((move_up s).active_idx - (s.top_row + s.max_items))) ∧
    ((move_down s).top_row ≤ (move_down s).active_idx ∧
      (move_down s).active_idx ≤ (move_down s).top_row + s.max_items) ∧
    ((move_up s).top_row ≤ (move_up s).active_idx ∧
      (move_up s).active_idx ≤ (move_up s).top_row + s.max_items) := by
  obtain ⟨a, mx, t, es, ft, fe, fi, fl⟩ := s
  obtain ⟨h1, h2, h3⟩ := hinv
  have hlen : 0 < fe.length := List.length_pos.mpr hne
  have hai : a < fe.length := h3 hne
  dsimp only at h1 h2 hai ⊢
  unfold move_up move_down
  dsimp only
  split <;> split <;> dsimp only <;>
    refine ⟨by omega, by omega, by omega, by omega, by omega, by omega⟩

/-- C7: away from both boundaries, `move_down` then `move_up` restores the
cursor position. -/
theorem move_down_up_inverse (s : LauncherState)
    (h0 : s.active_idx ≠ 0)
    (hlt : s.active_idx < s.filtered_entries.length)
    (hlast : s.active_idx ≠ s.filtered_entries.length - 1) :
    (move_up (move_down s)).active_idx = s.active_idx := by
  obtain ⟨a, mx, t, es, ft, fe, fi, fl⟩ := s
  dsimp only at h0 hlt hlast ⊢
  unfold move_up move_down
  dsimp only
  split <;> dsimp only <;> split <;> dsimp only <;> omega

/-- The external fuzzy scorer interface (`SkimMatcherV2::fuzzy_match`):
given a label and the filter term, `some score` on a match, `none` when the
term does not match.  The scorer lives in the external `fuzzy_matcher`
crate, so the engine is modelled as parametric in it. -/
def Matcher : Type := String → String → Option Int

/-- The per-row `MatchResult { row_idx, score }` record of `update_filter`. -/
structure MatchResult where
  row_idx : Nat
  score : Int
deriving DecidableEq

/-- The `entries.iter().enumerate().filter_map(..)` chain of
`update_filter`, with `i` the running enumeration counter. -/
def matchResults (m : Matcher) (term : String) : Nat → List LauncherEntry → List MatchResult
  | _, [] => []
  | i, entry :: rest =>
    match m entry.label term with
    | some score => ⟨i, score⟩ :: matchResults m term (i + 1) rest
    | none => matchResults m term (i + 1) rest

/-- The comparison `|a, b| a.score.cmp(&b.score).reverse()` passed to
`sort_by`: descending by score. -/
def scoreGE (a b : MatchResult) : Prop := b.score ≤ a.score

instance : DecidableRel scoreGE := fun a b => inferInstanceAs (Decidable (b.score ≤ a.score))

instance : IsTotal MatchResult scoreGE := ⟨fun a b => le_total b.score a.score⟩

instance : IsTrans MatchResult scoreGE := ⟨fun _ _ _ h1 h2 => le_trans h2 h1⟩

/-- `LauncherState::update_filter`.  `Vec::sort_by` is a stable sort, so it
is modelled by the (stable) insertion sort with the same comparator.  The
in-bounds indexing `self.entries[result.row_idx]` is modelled by `[·]?`;
`matchResults_row_idx_lt` shows the index is always in range. -/
def update_filter (m : Matcher) (s : LauncherState) : LauncherState :=
  if s.filter_term = "" then { s with filtered_entries := s.entries }
  else
    let sorted := List.insertionSort scoreGE (matchResults m s.filter_term 0 s.entries)
    { s with
      filtered_entries := sorted.filterMap (fun r => s.entries[r.row_idx]?),
      active_idx := 0, top_row := 0 }

theorem mem_matchResults (m : Matcher) (term : String) (r : MatchResult) :
    ∀ (l : List LauncherEntry) (i : Nat),
      r ∈ matchResults m term i l ↔
        ∃ j entry, l[j]? = some entry ∧ r.row_idx = i + j ∧
          m entry.label term = some r.score
  | [], i => by simp [matchResults]
  | e :: rest, i => by
    have IH := mem_matchResults m term r rest (i + 1)
    cases h : m e.label term with
    | none =>
      rw [matchResults, h, IH]
      constructor
      · rintro ⟨j, entry, hj, hrow, hm⟩
        exact ⟨j + 1, entry, by simpa using hj, by omega, hm⟩
      · rintro ⟨j, entry, hj, hrow, hm⟩
        cases j with
        | zero =>
          simp only [List.getElem?_cons_zero, Option.some.injEq] at hj
          subst hj
          rw [h] at hm
          cases hm
        | succ j' =>
          exact ⟨j', entry, by simpa using hj, by omega, hm⟩
    | some sc =>
      rw [matchResults, h]
      rw [List.mem_cons, IH]
      constructor
      · rintro (rfl | ⟨j, entry, hj, hrow, hm⟩)
        · exact ⟨0, e, by simp, by simp, by simpa using h⟩
        · exact ⟨j + 1, entry, by simpa using hj, by omega, hm⟩
      · rintro ⟨j, entry, hj, hrow, hm⟩
        cases j with
        | zero =>
          simp only [List.getElem?_cons_zero, Option.some.injEq] at hj
          subst hj
          rw [h] at hm
          obtain ⟨rr, rs⟩ := r
          simp only [Option.some.injEq] at hm
          simp only [Nat.add_zero] at hrow
          left
          simp_all
        | succ j' =>
          exact Or.inr ⟨j', entry, by simpa using hj, by omega, hm⟩

theorem matchResults_row_idx_lt (m : Matcher) (term : String) (r : MatchResult)
    (l : List LauncherEntry) (i : Nat) (hr : r ∈ matchResults m term i l) :
    r.row_idx < i + l.length := by
  obtain ⟨j, entry, hj, hrow, _⟩ := (mem_matchResults m term r l i).mp hr
  obtain ⟨hlt, -⟩ := List.getElem?_eq_some.mp hj
  omega

theorem matchResults_pairwise (m : Matcher) (term : String) :
    ∀ (l : List LauncherEntry) (i : Nat),
      (matchResults m term i l).Pairwise (fun a b => a.row_idx < b.row_idx)
  | [], _ => List.Pairwise.nil
  | e :: rest, i => by
    have IH := matchResults_pairwise m term rest (i + 1)
    cases h : m e.label term with
    | none => rw [matchResults, h]; exact IH
    | some sc =>
      rw [matchResults, h]
      refine List.Pairwise.cons (fun b hb => ?_) IH
      obtain ⟨j, entry, hj, hrow, hm⟩ := (mem_matchResults m term b rest (i + 1)).mp hb
      show i < b.row_idx
      omega

/-- Descending by score, with catalog position (`row_idx`) breaking ties:
the ranking produced by the stable `sort_by`. -/
def stableRank (a b : MatchResult) : Prop :=
  b.score ≤ a.score ∧ (a.score = b.score → a.row_idx < b.row_idx)

theorem orderedInsert_pairwise_stableRank (x : MatchResult) :
    ∀ (l : List MatchResult), l.Pairwise stableRank →
      (∀ b ∈ l, scoreGE x b → stableRank x b) →
      (∀ b ∈ l, ¬scoreGE x b → stableRank b x) →
      (List.orderedInsert scoreGE x l).Pairwise stableRank
  | [], _, _, _ => by simp [List.orderedInsert]
  | b :: l, hp, h1, h2 => by
    rw [List.orderedInsert]
    split
    · -- x placed in front: x :: b :: l
      next hxb =>
      refine List.Pairwise.cons (fun z hz => ?_) hp
      rcases List.mem_cons.mp hz with hzb | hzl
      · rw [hzb]
        exact h1 b (List.mem_cons_self _ _) hxb
      · have hbz := (List.pairwise_cons.mp hp).1 z hzl
        have hxz : scoreGE x z := le_trans hbz.1 hxb
        exact h1 z (List.mem_cons_of_mem _ hzl) hxz
    · -- b kept in front, x inserted into the tail
      next hxb =>
      have hp' := List.pairwise_cons.mp hp
      refine List.Pairwise.cons (fun z hz => ?_) ?_
      · rcases (List.mem_orderedInsert scoreGE).mp hz with hzx | hzl
        · rw [hzx]
          exact h2 b (List.mem_cons_self _ _) hxb
        · exact hp'.1 z hzl
      · exact orderedInsert_pairwise_stableRank x l hp'.2
          (fun c hc hx => h1 c (List.mem_cons_of_mem _ hc) hx)
          (fun c hc hx => h2 c (List.mem_cons_of_mem _ hc) hx)

theorem insertionSort_pairwise_stableRank :
    ∀ (l : List MatchResult), l.Pairwise (fun a b => a.row_idx < b.row_idx) →
      (List.insertionSort scoreGE l).Pairwise stableRank
  | [], _ => by simp [List.insertionSort]
  | x :: l, hp => by
    rw [List.insertionSort]
    have hp' := List.pairwise_cons.mp hp
    refine orderedInsert_pairwise_stableRank x _
      (insertionSort_pairwise_stableRank l hp'.2) ?_ ?_
    · intro b hb hge
      exact ⟨hge, fun _ => hp'.1 b ((List.mem_insertionSort scoreGE).mp hb)⟩
    · intro b hb hge
      have hlt : x.score < b.score := lt_of_not_le hge
      exact ⟨le_of_lt hlt, fun he => absurd he (by omega)⟩

/-- C5: with empty `filter_term`, the filtered view is the catalog in
catalog order; with non-empty `filter_term`, it consists of exactly the
catalog entries whose label the scorer matches, listed by the stably sorted
score list: scores descending, ties kept in catalog (`row_idx`) order. -/
theorem update_filter_ranking (m : Matcher) (s : LauncherState) :
    (s.filter_term = "" → (update_filter m s).filtered_entries = s.entries) ∧
    (s.filter_term ≠ "" →
      (∀ e, e ∈ (update_filter m s).filtered_entries ↔
        (e ∈ s.entries ∧ m e.label s.filter_term ≠ none)) ∧
      (update_filter m s).filtered_entries =
        (List.insertionSort scoreGE (matchResults m s.filter_term 0 s.entries)).filterMap
          (fun r => s.entries[r.row_idx]?) ∧
      (List.insertionSort scoreGE
          (matchResults m s.filter_term 0 s.entries)).Pairwise stableRank) := by
  constructor
  · intro h
    unfold update_filter
    rw [if_pos h]
  · intro h
    refine ⟨?_, ?_, ?_⟩
    · intro e
      unfold update_filter
      rw [if_neg h]
      dsimp only
      rw [List.mem_filterMap]
      constructor
      · rintro ⟨r, hr, hfr⟩
        obtain ⟨j, entry, hj, hrow, hm⟩ :=
          (mem_matchResults m s.filter_term r s.entries 0).mp
            ((List.mem_insertionSort scoreGE).mp hr)
        rw [hrow, Nat.zero_add, hj] at hfr
        obtain rfl := Option.some.inj hfr
        exact ⟨List.mem_iff_getElem?.mpr ⟨j, hj⟩, by simp [hm]⟩
      · rintro ⟨he, hm⟩
        obtain ⟨j, hj⟩ := List.mem_iff_getElem?.mp he
        obtain ⟨sc, hsc⟩ := Option.ne_none_iff_exists'.mp hm
        refine ⟨⟨j, sc⟩, ?_, ?_⟩
        · exact (List.mem_insertionSort scoreGE).mpr
            ((mem_matchResults m s.filter_term ⟨j, sc⟩ s.entries 0).mpr
              ⟨j, e, hj, by simp, hsc⟩)
        · simpa using hj
    · unfold update_filter
      rw [if_neg h]
    · exact insertionSort_pairwise_stableRank _
        (matchResults_pairwise m s.filter_term s.entries 0)

/-- C4 (amended): re-filtering with a non-empty `filter_term` resets
`active_idx` and `top_row` to 0; the change that makes `filter_term` empty
takes the early-return path, which restores `filtered_entries` to the full
catalog but leaves `active_idx` and `top_row` unchanged. -/
theorem update_filter_reset (m : Matcher) (s : LauncherState) :
    (s.filter_term ≠ "" →
      (update_filter m s).active_idx = 0 ∧ (update_filter m s).top_row = 0) ∧
    (s.filter_term = "" →
      (update_filter m s).active_idx = s.active_idx ∧
      (update_filter m s).top_row = s.top_row ∧
      (update_filter m s).filtered_entries = s.entries) := by
  unfold update_filter
  constructor
  · intro h
    rw [if_neg h]
    exact ⟨rfl, rfl⟩
  · intro h
    rw [if_pos h]
    exact ⟨rfl, rfl, rfl⟩

/-! Concrete sample data for witnesses. -/

def entA : LauncherEntry := { label := "build", action := .Other 0 }

def entB : LauncherEntry := { label := "ssh1", action := .Other 1 }

def entC : LauncherEntry := { label := "local", action := .Other 2 }

def entD : LauncherEntry := { label := "misc", action := .Other 3 }

/-- A small mid-session state: four rows, cursor on row 1, window of 3. -/
def sampleState : LauncherState :=
  { active_idx := 1, max_items := 2, top_row := 0,
    entries := [entA, entB, entC, entD], filter_term := "",
    filtered_entries := [entA, entB, entC, entD],
    filtering := false, flags := { fuzzy := false } }

theorem move_scroll_adjustment_witness :
    SessionInvariant sampleState ∧ sampleState.filtered_entries ≠ [] ∧
      ((move_down sampleState).top_row ≤ (move_down sampleState).active_idx ∧
        (move_down sampleState).active_idx ≤ (move_down sampleState).top_row + sampleState.max_items) :=
  ⟨by decide, by decide,
    (move_scroll_adjustment sampleState (by decide) (by decide)).2.2.2.2.1⟩

theorem move_down_up_inverse_witness :
    sampleState.active_idx ≠ 0 ∧
      sampleState.active_idx < sampleState.filtered_entries.length ∧
      sampleState.active_idx ≠ sampleState.filtered_entries.length - 1 ∧
      (move_up (move_down sampleState)).active_idx = sampleState.active_idx :=
  ⟨by decide, by decide, by decide,
    move_down_up_inverse sampleState (by decide) (by decide) (by decide)⟩

/-- Modelled from the spec: a simple skip-aware subsequence scorer, used
only to instantiate the external scorer parameter (`SkimMatcherV2` of the
external `fuzzy_matcher` crate) in concrete examples.  Matches when the
term is a subsequence of the label. -/
def subseqScore : List Char → List Char → Option Int
  | [], _ => some 0
  | _ :: _, [] => none
  | p :: ps, c :: cs =>
    if p = c then (subseqScore ps cs).map (fun sc => sc + 2)
    else subseqScore (p :: ps) cs

def subseqMatch : Matcher := fun label term => subseqScore term.data label.data

/-- A state mid-filtering: term `"s"` typed, cursor moved to row 2. -/
def filterState : LauncherState :=
  { active_idx := 2, max_items := 5, top_row := 0,
    entries := [entA, entB, entC, entD], filter_term := "s",
    filtered_entries := [entA, entB, entC, entD],
    filtering := true, flags := { fuzzy := false } }

theorem update_filter_ranking_witness :
    filterState.filter_term ≠ "" ∧
      ((∀ e, e ∈ (update_filter subseqMatch filterState).filtered_entries ↔
        (e ∈ filterState.entries ∧ subseqMatch e.label filterState.filter_term ≠ none)) ∧
      (update_filter subseqMatch filterState).filtered_entries =
        (List.insertionSort scoreGE
            (matchResults subseqMatch filterState.filter_term 0 filterState.entries)).filterMap
          (fun r => filterState.entries[r.row_idx]?) ∧
      (List.insertionSort scoreGE
          (matchResults subseqMatch filterState.filter_term 0 filterState.entries)).Pairwise
        stableRank) :=
  ⟨by decide, (update_filter_ranking subseqMatch filterState).2 (by decide)⟩

theorem update_filter_reset_witness :
    filterState.filter_term ≠ "" ∧
      (update_filter subseqMatch filterState).active_idx = 0 ∧
      (update_filter subseqMatch filterState).top_row = 0 :=
  ⟨by decide, (update_filter_reset subseqMatch filterState).1 (by decide)⟩

/-! ## The input loop (`LauncherState::run_loop`) -/

/-- The facets of `termwiz::input::Modifiers` the loop inspects: the
`Ctrl-P` / `Ctrl-N` / `Ctrl-G` arms require the modifier set to equal
`CTRL`; every other arm ignores modifiers. -/
inductive Modifiers where
  | NONE
  | CTRL
  | OTHER
deriving DecidableEq

/-- `termwiz::input::MouseButtons` bitflags; the loop tests `VERT_WHEEL`
and `WHEEL_POSITIVE` membership, equality with `LEFT`, and inequality with
`NONE`. -/
structure MouseButtons where
  left : Bool
  right : Bool
  middle : Bool
  vert_wheel : Bool
  wheel_positive : Bool
deriving DecidableEq

def MouseButtons.NONE : MouseButtons :=
  { left := false, right := false, middle := false,
    vert_wheel := false, wheel_positive := false }

def MouseButtons.LEFT : MouseButtons :=
  { left := true, right := false, middle := false,
    vert_wheel := false, wheel_positive := false }

def MouseButtons.RIGHT : MouseButtons :=
  { left := false, right := true, middle := false,
    vert_wheel := false, wheel_positive := false }

/-- The key codes the loop distinguishes; every other key falls into the
final wildcard arm, represented by `OtherKey`. -/
inductive KeyCode where
  | Char : Char → KeyCode
  | Backspace
  | Escape
  | Enter
  | UpArrow
  | DownArrow
  | OtherKey
deriving DecidableEq

/-- `termwiz::input::InputEvent` as consumed by `run_loop`: key events
(key code + modifiers), mouse events (`y` row coordinate + buttons; `x` is
never read), and resize events (`rows`; `cols` is never read). -/
inductive InputEvent where
  | Key : KeyCode → Modifiers → InputEvent
  | Mouse : Nat → MouseButtons → InputEvent
  | Resized : Nat → InputEvent
deriving DecidableEq

/-- Outcome of one `run_loop` iteration: `cont s` re-renders `s` and keeps
looping; `exit s launched` leaves the loop (session ends), with
`launched = some idx` exactly when `launch(idx)` was invoked first. -/
inductive StepResult where
  | cont : LauncherState → StepResult
  | exit : LauncherState → Option Nat → StepResult
deriving DecidableEq

/-- `LauncherState::launch` resolves `filtered_entries[active_idx].action`
for the dispatch sink.  The source indexes the vector directly — `none`
models the out-of-bounds panic. -/
def launchAction (s : LauncherState) (active_idx : Nat) : Option KeyAssignment :=
  (s.filtered_entries[active_idx]?).map (fun e => e.action)

/-- `String::pop`: drop the last character. -/
def strPop (t : String) : String := ⟨t.data.dropLast⟩

/-- `ROW_OVERHEAD`: fixed header/footer rows. -/
def ROW_OVERHEAD : Nat := 3

/-- One iteration of `run_loop`, arms in source order.  In the `Char c`
arm chain the guards mirror the source's pattern guards, so an event only
reaches a later test after every earlier pattern failed.  `m` is the
external fuzzy scorer used by `update_filter`. -/
def step (m : Matcher) (s : LauncherState) (ev : InputEvent) : StepResult :=
  match ev with
  | .Key (.Char c) mods =>
    if ¬s.filtering ∧ '1' ≤ c ∧ c ≤ '9' then
      .exit s (some (s.top_row + (c.toNat - '1'.toNat)))
    else if c = 'j' ∧ ¬s.filtering then .cont (move_down s)
    else if c = 'k' ∧ ¬s.filtering then .cont (move_up s)
    else if c = 'P' ∧ mods = Modifiers.CTRL then .cont (move_up s)
    else if c = 'N' ∧ mods = Modifiers.CTRL then .cont (move_down s)
    else if c = '/' ∧ ¬s.filtering then .cont { s with filtering := true }
    else if c = 'G' ∧ mods = Modifiers.CTRL then .exit s none
    else if s.filtering then
      .cont (update_filter m { s with filter_term := s.filter_term.push c })
    else .cont s
  | .Key .Backspace _ =>
    .cont (update_filter m
      { s with
        filter_term := strPop s.filter_term,
        filtering :=
          if s.filter_term = "" ∧ ¬s.flags.fuzzy then false else s.filtering })
  | .Key .Escape _ => .exit s none
  | .Key .Enter _ => .exit s (some s.active_idx)
  | .Key .UpArrow _ => .cont (move_up s)
  | .Key .DownArrow _ => .cont (move_down s)
  | .Key .OtherKey _ => .cont s
  | .Mouse y btns =>
    if btns.vert_wheel then
      let top_row :=
        if btns.wheel_positive then s.top_row - 1
        else min (s.top_row + 1) (s.filtered_entries.length - s.max_items - 1)
      if 0 < y ∧ y ≤ s.filtered_entries.length then
        .cont { s with top_row := top_row, active_idx := top_row + y - 1 }
      else
        .cont { s with top_row := top_row }
    else
      if 0 < y ∧ y ≤ s.filtered_entries.length then
        if btns = MouseButtons.LEFT then
          .exit { s with active_idx := s.top_row + y - 1 } (some (s.top_row + y - 1))
        else if btns ≠ MouseButtons.NONE then
          .exit { s with active_idx := s.top_row + y - 1 } none
        else
          .cont { s with active_idx := s.top_row + y - 1 }
      else
        if btns ≠ MouseButtons.NONE then .exit s none
        else .cont s
  | .Resized rows => .cont { s with max_items := rows - ROW_OVERHEAD }

/-- A trivial scorer instantiation for concrete loop traces in which the
fuzzy scorer plays no role. -/
def m0 : Matcher := fun _ _ => none

/-- Navigation-mode session with exactly three filtered rows. -/
def threeRowState : LauncherState :=
  { active_idx := 0, max_items := 5, top_row := 0,
    entries := [entA, entB, entC], filter_term := "",
    filtered_entries := [entA, entB, entC],
    filtering := false, flags := { fuzzy := false } }

/-- A session whose catalog (hence filtered view) is empty. -/
def emptyFilteredState : LauncherState :=
  { active_idx := 0, max_items := 5, top_row := 0,
    entries := [], filter_term := "",
    filtered_entries := [],
    filtering := false, flags := { fuzzy := false } }

/-- C1 (code bug evidence): quick-select and Enter launch with no bounds
check.  Pressing `9` with three filtered rows makes `run_loop` call
`launch(8)`, and `launch` evaluates `filtered_entries[8]` — an
out-of-bounds `Vec` index, i.e. a panic (`launchAction = none`), not the
guarded no-op the spec requires; likewise Enter on an empty filtered list
calls `launch(0)`. -/
theorem launch_unguarded_out_of_range :
    step m0 threeRowState (.Key (.Char '9') .NONE) = .exit threeRowState (some 8) ∧
    threeRowState.filtered_entries.length = 3 ∧
    launchAction threeRowState 8 = none ∧
    step m0 emptyFilteredState (.Key .Enter .NONE) = .exit emptyFilteredState (some 0) ∧
    launchAction emptyFilteredState 0 = none := by
  refine ⟨by decide, by decide, by decide, by decide, by decide⟩

/-- Scroll-capacity-1 session used to break the invariant via the wheel. -/
def wheelState : LauncherState :=
  { active_idx := 0, max_items := 1, top_row := 0,
    entries := [entA, entB, entC, entD], filter_term := "",
    filtered_entries := [entA, entB, entC, entD],
    filtering := false, flags := { fuzzy := false } }

def wheelButtons : MouseButtons :=
  { left := false, right := false, middle := false,
    vert_wheel := true, wheel_positive := false }

/-- C2 counterexample: from a state satisfying the invariant (4 filtered
rows, viewport 1, cursor 0), a downward wheel event at row `y = 4` moves
`active_idx` to `top_row + y - 1 = 4`, which is both `≥ filtered.len()`
and outside the visible window — the invariant does not survive this
transition of the input loop. -/
theorem invariant_broken_by_wheel :
    SessionInvariant wheelState ∧
    step m0 wheelState (.Mouse 4 wheelButtons) =
      .cont { wheelState with top_row := 1, active_idx := 4 } ∧
    ¬ SessionInvariant { wheelState with top_row := 1, active_idx := 4 } := by
  refine ⟨by decide, by decide, by decide⟩

theorem update_filter_inv (m : Matcher) (s : LauncherState)
    (h1 : s.top_row ≤ s.active_idx)
    (h2 : s.active_idx ≤ s.top_row + s.max_items)
    (h3 : s.filtered_entries ≠ [] → s.active_idx < s.filtered_entries.length)
    (hne : s.filtered_entries ≠ [])
    (hlen : s.filtered_entries.length ≤ s.entries.length) :
    SessionInvariant (update_filter m s) := by
  unfold update_filter SessionInvariant
  split
  · dsimp only
    exact ⟨h1, h2, fun _ => lt_of_lt_of_le (h3 hne) hlen⟩
  · dsimp only
    exact ⟨Nat.le_refl 0, Nat.zero_le _, fun hne' => List.length_pos.mpr hne'⟩

/-- C2 (amended): every key-event transition that continues the loop
preserves the session invariant, given a non-empty filtered view no longer
than the catalog (true of every reachable state); the mouse wheel/hover
and resize transitions can violate the invariant. -/
theorem step_key_preserves_invariant (m : Matcher) (s s' : LauncherState)
    (k : KeyCode) (mods : Modifiers)
    (hinv : SessionInvariant s)
    (hne : s.filtered_entries ≠ [])
    (hlen : s.filtered_entries.length ≤ s.entries.length)
    (hstep : step m s (.Key k mods) = .cont s') :
    SessionInvariant s' := by
  obtain ⟨h1, h2, h3⟩ := hinv
  cases k with
  | Char c =>
    simp only [step] at hstep
    split_ifs at hstep
    all_goals cases hstep
    all_goals first
      | exact move_down_inv s ⟨h1, h2, h3⟩ hne
      | exact move_up_inv s ⟨h1, h2, h3⟩
      | exact update_filter_inv m _ h1 h2 h3 hne hlen
      | exact ⟨h1, h2, h3⟩
  | Backspace =>
    simp only [step] at hstep
    cases hstep
    exact update_filter_inv m _ h1 h2 h3 hne hlen
  | Escape => simp only [step] at hstep; cases hstep
  | Enter => simp only [step] at hstep; cases hstep
  | UpArrow => simp only [step] at hstep; cases hstep; exact move_up_inv s ⟨h1, h2, h3⟩
  | DownArrow =>
    simp only [step] at hstep; cases hstep; exact move_down_inv s ⟨h1, h2, h3⟩ hne
  | OtherKey => simp only [step] at hstep; cases hstep; exact ⟨h1, h2, h3⟩

theorem step_key_preserves_invariant_witness :
    SessionInvariant sampleState ∧ sampleState.filtered_entries ≠ [] ∧
      sampleState.filtered_entries.length ≤ sampleState.entries.length ∧
      SessionInvariant (move_down sampleState) :=
  ⟨by decide, by decide, by decide,
    step_key_preserves_invariant m0 sampleState (move_down sampleState)
      (.Char 'j') .NONE (by decide) (by decide) (by decide) (by decide)⟩

/-- C10: for a non-wheel mouse event, any button press at an invalid row
coordinate (`y` outside `1..=filtered.len()`, including a left click below
the listed rows) exits the session with no launch and the state — in
particular `active_idx` and `top_row` — unchanged; a buttonless mouse
event over a valid row only moves `active_idx` to `top_row + y - 1`,
neither launching nor exiting. -/
theorem mouse_click_behavior (m : Matcher) (s : LauncherState) (y : Nat)
    (btns : MouseButtons) (hw : btns.vert_wheel = false) :
    (¬(0 < y ∧ y ≤ s.filtered_entries.length) → btns ≠ MouseButtons.NONE →
      step m s (.Mouse y btns) = .exit s none) ∧
    (btns = MouseButtons.NONE → (0 < y ∧ y ≤ s.filtered_entries.length) →
      step m s (.Mouse y btns) = .cont { s with active_idx := s.top_row + y - 1 }) := by
  constructor
  · intro hy hb
    simp only [step, hw, Bool.false_eq_true, if_false]
    rw [if_neg hy, if_pos hb]
  · intro hb hy
    subst hb
    simp only [step, hw, Bool.false_eq_true, if_false]
    rw [if_pos hy, if_neg (by decide), if_neg (by simp)]

theorem mouse_click_behavior_witness :
    MouseButtons.RIGHT.vert_wheel = false ∧
      step m0 sampleState (.Mouse 99 MouseButtons.RIGHT) = .exit sampleState none :=
  ⟨rfl,
    (mouse_click_behavior m0 sampleState 99 MouseButtons.RIGHT rfl).1
      (by decide) (by decide)⟩

/-- A filtering session with term `"s"` (filtered view `[entB, entD]`) and
the cursor moved to row 1. -/
def popState : LauncherState :=
  { active_idx := 1, max_items := 5, top_row := 0,
    entries := [entA, entB, entC, entD], filter_term := "s",
    filtered_entries := [entB, entD],
    filtering := true, flags := { fuzzy := false } }

/-- The state after Backspace empties the filter from `popState`. -/
def popStateAfter : LauncherState :=
  { active_idx := 1, max_items := 5, top_row := 0,
    entries := [entA, entB, entC, entD], filter_term := "",
    filtered_entries := [entA, entB, entC, entD],
    filtering := true, flags := { fuzzy := false } }

/-- C4 counterexample: the Backspace that empties `filter_term`
re-filters (the filtered view becomes the full catalog again) but takes
`update_filter`'s early-return path, leaving `active_idx = 1` instead of
resetting it to 0. -/
theorem backspace_no_reset :
    step subseqMatch popState (.Key .Backspace .NONE) = .cont popStateAfter ∧
      popStateAfter.filter_term = "" ∧ popStateAfter.active_idx = 1 ∧
      ¬(popStateAfter.active_idx = 0 ∧ popStateAfter.top_row = 0) := by
  refine ⟨by decide, by decide, by decide, by decide⟩

/-! ## The frame renderer (`LauncherState::render`), row listing -/

/-- The row-listing loop of `render`: it walks
`filtered_entries.iter().enumerate().skip(top_row).enumerate()` — elements
`(row_num, (entry_idx, entry))` — and breaks once `row_num > max_items`
(a *strict* test, so row numbers `0 ..= max_items` are all emitted). -/
def renderLoop (max_items : Nat) : List (Nat × Nat × LauncherEntry) → List LauncherEntry
  | [] => []
  | x :: rest =>
    if max_items < x.1 then []
    else x.2.2 :: renderLoop max_items rest

/-- The entry rows a `render` frame lists, in order. -/
def renderRows (s : LauncherState) : List LauncherEntry :=
  renderLoop s.max_items ((s.filtered_entries.enum.drop s.top_row).enum)

theorem renderLoop_enumFrom (max_items : Nat) :
    ∀ (l : List (Nat × LauncherEntry)) (i : Nat),
      renderLoop max_items (l.enumFrom i) =
        (l.take (max_items + 1 - i)).map Prod.snd
  | [], i => by simp [renderLoop, List.enumFrom]
  | p :: rest, i => by
    rw [List.enumFrom, renderLoop]
    split
    · next h =>
      have h0 : max_items + 1 - i = 0 := by omega
      rw [h0]
      simp
    · next h =>
      rw [renderLoop_enumFrom max_items rest (i + 1)]
      have h1 : max_items + 1 - i = (max_items + 1 - (i + 1)) + 1 := by omega
      rw [h1, List.take_succ_cons, List.map_cons]

/-- C6 (amended): a rendered frame lists the filtered rows starting at
index `top_row`, and emits at most `max_items + 1` of them (the loop's
break fires only once `row_num > max_items`, an inclusive bound, so one
more row than `visible_rows` can appear). -/
theorem render_rows_window (s : LauncherState) :
    renderRows s = (s.filtered_entries.drop s.top_row).take (s.max_items + 1) ∧
    (renderRows s).length ≤ s.max_items + 1 ∧
    (∀ i, i < (renderRows s).length →
      (renderRows s)[i]? = s.filtered_entries[s.top_row + i]?) := by
  have key : renderRows s = (s.filtered_entries.drop s.top_row).take (s.max_items + 1) := by
    unfold renderRows
    rw [show (s.filtered_entries.enum.drop s.top_row).enum =
        (s.filtered_entries.enum.drop s.top_row).enumFrom 0 from rfl]
    rw [renderLoop_enumFrom]
    rw [Nat.sub_zero, List.map_take, List.map_drop, List.enum_map_snd]
  refine ⟨key, ?_, ?_⟩
  · rw [key]
    exact le_trans (List.length_take_le _ _) (le_refl _)
  · intro i hi
    rw [key] at hi ⊢
    have hlt : i < s.max_items + 1 := lt_of_lt_of_le hi (by
      exact le_trans (List.length_take_le _ _) (le_refl _))
    rw [List.getElem?_take, if_pos hlt, List.getElem?_drop]

theorem render_rows_window_witness :
    0 < (renderRows sampleState).length ∧
      (renderRows sampleState)[0]? = sampleState.filtered_entries[sampleState.top_row + 0]? :=
  ⟨by decide, (render_rows_window sampleState).2.2 0 (by decide)⟩

/-- A narrow viewport (`max_items = 1`) with three filtered rows. -/
def narrowState : LauncherState :=
  { active_idx := 0, max_items := 1, top_row := 0,
    entries := [entA, entB, entC], filter_term := "",
    filtered_entries := [entA, entB, entC],
    filtering := false, flags := { fuzzy := false } }

/-- C6 counterexample: with `visible_rows = max_items = 1` the frame lists
2 rows (row numbers 0 and 1), exceeding `visible_rows`. -/
theorem render_rows_overflow :
    (renderRows narrowState).length = 2 ∧ narrowState.max_items = 1 ∧
      ¬((renderRows narrowState).length ≤ narrowState.max_items) := by
  refine ⟨by decide, by decide, by decide⟩

/-! ## Catalog assembly (`build_entries`) -/

/-- `LauncherArgs` — the fields `build_entries` reads.  The mux/window
identifiers, title and workspace data are consumed only by external
collaborators and are omitted. -/
structure LauncherArgs where
  flags : LauncherFlags
  domains : List LauncherEntry
  cmddefs : List LauncherEntry
  shortcuts : List LauncherEntry
  tabs : List LauncherEntry
  entries : List LauncherEntry

/-- `LauncherState::build_entries`: pushes, in source order, the domain
entries, tab entries, free-form entries, command entries and shortcut
entries onto `self.entries`. -/
def build_entries (s : LauncherState) (args : LauncherArgs) : LauncherState :=
  { s with entries :=
      s.entries ++ args.domains ++ args.tabs ++ args.entries
        ++ args.cmddefs ++ args.shortcuts }

/-- C8: starting (as `launcher` does) from an empty entry list, the built
catalog is the domain entries, then tab entries, then free-form entries,
then command entries, then shortcut entries. -/
theorem build_entries_order (s : LauncherState) (args : LauncherArgs)
    (h : s.entries = []) :
    (build_entries s args).entries =
      args.domains ++ args.tabs ++ args.entries ++ args.cmddefs ++ args.shortcuts := by
  simp [build_entries, h]

def sampleArgs : LauncherArgs :=
  { flags := { fuzzy := false }, domains := [entA], cmddefs := [entC],
    shortcuts := [entD], tabs := [entB], entries := [] }

theorem build_entries_order_witness :
    emptyFilteredState.entries = [] ∧
      (build_entries emptyFilteredState sampleArgs).entries =
        sampleArgs.domains ++ sampleArgs.tabs ++ sampleArgs.entries
          ++ sampleArgs.cmddefs ++ sampleArgs.shortcuts :=
  ⟨rfl, build_entries_order emptyFilteredState sampleArgs rfl⟩

/-! ## Shortcut entries (`LauncherArgs::new`, KEY_ASSIGNMENTS block) -/

/-- One resolved key binding `((KeyCode, Modifiers), KeyTableEntry)`: the
loop reads its bound action (`get_action`) and formats code/mods/action
into the label (`get_label`, further rewritten by the external lua hook). -/
structure KeyMapEntry where
  code : String
  mods : String
  action : KeyAssignment
deriving DecidableEq

/-- The `KeyAssignment::ActivateTabRelative(_) | KeyAssignment::ActivateTab(_)`
exclusion test applied to each binding's action. -/
def isTabActivation : KeyAssignment → Bool
  | .ActivateTab _ => true
  | .ActivateTabRelative _ => true
  | _ => false

/-- `keymap.get_entry(0)`: the `LauncherEntry` built for one binding.
`labelOf` stands for `get_label` composed with the external
`format-launcher-item` hook (failure falls back to the original label, so
the result is some label string either way). -/
def keyEntry (labelOf : KeyMapEntry → String) (k : KeyMapEntry) : LauncherEntry :=
  { label := labelOf k, action := k.action }

/-- The accumulation loop over `keys`: skip tab activations, skip bindings
whose action an already-pushed entry carries
(`key_entries.iter().find(|ent| ent.action == action)`), otherwise push. -/
def buildKeyLoop (labelOf : KeyMapEntry → String) :
    List KeyMapEntry → List LauncherEntry → List LauncherEntry
  | [], acc => acc
  | k :: rest, acc =>
    if isTabActivation k.action then buildKeyLoop labelOf rest acc
    else
      match acc.find? (fun ent => decide (ent.action = k.action)) with
      | some _ => buildKeyLoop labelOf rest acc
      | none => buildKeyLoop labelOf rest (acc ++ [keyEntry labelOf k])

/-- `|a, b| a.label.cmp(&b.label)`: alphabetical label order. -/
def labelLE (a b : LauncherEntry) : Prop := a.label ≤ b.label

instance : DecidableRel labelLE := fun a b => inferInstanceAs (Decidable (a.label ≤ b.label))

instance : IsTotal LauncherEntry labelLE := ⟨fun a b => le_total a.label b.label⟩

instance : IsTrans LauncherEntry labelLE := ⟨fun _ _ _ => le_trans⟩

/-- The full shortcut construction of `LauncherArgs::new`: the loop, then
`key_entries.sort_by(|a, b| a.label.cmp(&b.label))` (a stable sort,
modelled by the stable insertion sort). -/
def build_shortcuts (labelOf : KeyMapEntry → String) (keys : List KeyMapEntry) :
    List LauncherEntry :=
  List.insertionSort labelLE (buildKeyLoop labelOf keys [])

/-- Reference first-occurrence filter: keep a binding iff its action is
not a tab activation and no earlier kept binding bound an equal action
(`seen` holds the actions of earlier kept bindings). -/
def dedupFirst (seen : List KeyAssignment) : List KeyMapEntry → List KeyMapEntry
  | [] => []
  | k :: rest =>
    if isTabActivation k.action ∨ k.action ∈ seen then dedupFirst seen rest
    else k :: dedupFirst (k.action :: seen) rest

theorem dedupFirst_congr (s1 s2 : List KeyAssignment)
    (h : ∀ a, a ∈ s1 ↔ a ∈ s2) :
    ∀ keys, dedupFirst s1 keys = dedupFirst s2 keys
  | [] => rfl
  | k :: rest => by
    rw [dedupFirst, dedupFirst]
    have hc : (isTabActivation k.action = true ∨ k.action ∈ s1) ↔
        (isTabActivation k.action = true ∨ k.action ∈ s2) := or_congr Iff.rfl (h _)
    by_cases hx : isTabActivation k.action = true ∨ k.action ∈ s1
    · rw [if_pos hx, if_pos (hc.mp hx), dedupFirst_congr s1 s2 h rest]
    · rw [if_neg hx, if_neg (fun hy => hx (hc.mpr hy))]
      have h' : ∀ a, a ∈ k.action :: s1 ↔ a ∈ k.action :: s2 := by
        intro a
        simp [h a]
      rw [dedupFirst_congr (k.action :: s1) (k.action :: s2) h' rest]

theorem buildKeyLoop_eq (labelOf : KeyMapEntry → String) :
    ∀ (keys : List KeyMapEntry) (acc : List LauncherEntry),
      buildKeyLoop labelOf keys acc =
        acc ++ (dedupFirst (acc.map (fun e => e.action)) keys).map (keyEntry labelOf)
  | [], acc => by simp [buildKeyLoop, dedupFirst]
  | k :: rest, acc => by
    rw [buildKeyLoop]
    by_cases ht : isTabActivation k.action
    · rw [if_pos ht, buildKeyLoop_eq labelOf rest acc, dedupFirst, if_pos (Or.inl ht)]
    · rw [if_neg ht]
      cases hf : acc.find? (fun ent => decide (ent.action = k.action)) with
      | some e =>
        have hpe := List.find?_some hf
        have he : e.action = k.action := by simpa using hpe
        have hmem : k.action ∈ acc.map (fun x => x.action) :=
          List.mem_map.mpr ⟨e, List.mem_of_find?_eq_some hf, he⟩
        rw [buildKeyLoop_eq labelOf rest acc, dedupFirst, if_pos (Or.inr hmem)]
      | none =>
        have hnmem : k.action ∉ acc.map (fun x => x.action) := by
          intro hmem
          obtain ⟨x, hx, hxa⟩ := List.mem_map.mp hmem
          have := List.find?_eq_none.mp hf x hx
          simp [hxa] at this
        rw [buildKeyLoop_eq labelOf rest (acc ++ [keyEntry labelOf k])]
        rw [dedupFirst, if_neg (fun hy => hy.elim ht hnmem)]
        have hseen : ∀ a,
            a ∈ (acc ++ [keyEntry labelOf k]).map (fun e => e.action) ↔
              a ∈ k.action :: acc.map (fun e => e.action) := by
          intro a
          simp [keyEntry, or_comm]
        rw [dedupFirst_congr _ _ hseen rest]
        simp

theorem dedupFirst_not_tab :
    ∀ (keys : List KeyMapEntry) (seen : List KeyAssignment) (k : KeyMapEntry),
      k ∈ dedupFirst seen keys → isTabActivation k.action = false
  | [], _, _ => by simp [dedupFirst]
  | k0 :: rest, seen, k => by
    rw [dedupFirst]
    split
    · exact dedupFirst_not_tab rest seen k
    · next hcond =>
      intro hk
      rcases List.mem_cons.mp hk with hk0 | hmem
      · rw [hk0]
        have hnt : ¬(isTabActivation k0.action = true) := fun h => hcond (Or.inl h)
        exact Bool.eq_false_iff.mpr hnt
      · exact dedupFirst_not_tab rest _ k hmem

theorem dedupFirst_distinct :
    ∀ (keys : List KeyMapEntry) (seen : List KeyAssignment),
      (dedupFirst seen keys).Pairwise (fun a b => a.action ≠ b.action) ∧
      ∀ k ∈ dedupFirst seen keys, k.action ∉ seen
  | [], _ => ⟨List.Pairwise.nil, by simp [dedupFirst]⟩
  | k0 :: rest, seen => by
    rw [dedupFirst]
    split
    · exact dedupFirst_distinct rest seen
    · next hcond =>
      obtain ⟨IH1, IH2⟩ := dedupFirst_distinct rest (k0.action :: seen)
      refine ⟨List.Pairwise.cons (fun b hb => ?_) IH1, ?_⟩
      · intro he
        apply IH2 b hb
        rw [← he]
        exact List.mem_cons_self _ _
      · intro k hk
        rcases List.mem_cons.mp hk with hk0 | hmem
        · rw [hk0]
          exact fun hs => hcond (Or.inr hs)
        · exact fun hs => IH2 k hmem (List.mem_cons_of_mem _ hs)

/-- C9: shortcut entries exclude `ActivateTab` / `ActivateTabRelative`
bindings, deduplicate structurally equal actions keeping the first binding
encountered (the result is a permutation of the first-occurrence filter of
the binding list), and come out sorted alphabetically by label. -/
theorem build_shortcuts_spec (labelOf : KeyMapEntry → String) (keys : List KeyMapEntry) :
    (∀ e ∈ build_shortcuts labelOf keys, isTabActivation e.action = false) ∧
    (build_shortcuts labelOf keys).Pairwise (fun a b => a.action ≠ b.action) ∧
    (build_shortcuts labelOf keys).Perm ((dedupFirst [] keys).map (keyEntry labelOf)) ∧
    (build_shortcuts labelOf keys).Pairwise labelLE := by
  have hbase : buildKeyLoop labelOf keys [] = (dedupFirst [] keys).map (keyEntry labelOf) := by
    simpa using buildKeyLoop_eq labelOf keys []
  have hperm : (build_shortcuts labelOf keys).Perm
      ((dedupFirst [] keys).map (keyEntry labelOf)) := by
    unfold build_shortcuts
    rw [hbase]
    exact List.perm_insertionSort labelLE _
  refine ⟨?_, ?_, hperm, ?_⟩
  · intro e he
    obtain ⟨k, hk, hke⟩ := List.mem_map.mp (hperm.mem_iff.mp he)
    rw [← hke]
    exact dedupFirst_not_tab keys [] k hk
  · have hpd : ((dedupFirst [] keys).map (keyEntry labelOf)).Pairwise
        (fun a b => a.action ≠ b.action) := by
      rw [List.pairwise_map]
      exact (dedupFirst_distinct keys []).1
    exact (hperm.pairwise_iff (fun h he => h he.symm)).mpr hpd
  · exact List.sorted_insertionSort labelLE _

end WezLauncher
